import Mathlib

set_option linter.unusedVariables false

/-!
Verification of the supervised source-localization notebook
(`modules/supervised_source_localization/waspaa_paper.ipynb`).

The notebook builds a training affinity matrix `W`, extends it to an
asymmetric test affinity matrix `A` via a Mahalanobis-weighted Gaussian
kernel, normalizes `A` into `A_tilde`, extends the eigenvectors of `W` to
the test rows by a Nystrom formula, and interpolates test directions from
training directions.

The embedding below follows the notebook cells; helper functions that the
notebook imports from the absent `script_rtf.py` are modelled from the
design document and are marked as such in their doc comments.  Matrices
with notebook-level integer indexing (`A[i+m, j]`) are embedded as total
functions `ℕ → ℕ → ℝ`; the fixed-size covariance matrices use Mathlib's
`Matrix (Fin D) (Fin D) ℝ`.
-/

noncomputable section

open scoped BigOperators

/-- A feature vector of `D` frequency bins (the notebook's complex RTF
features are embedded by their real coordinates; only the algebraic shape
of the quadratic form matters for the properties below). -/
abbrev Vec (D : ℕ) := Fin D → ℝ

/-- A notebook-style 2-d array, indexed by unbounded integer indices as in
`A[i+m, j]`; the intended shape is tracked in the statements. -/
abbrev Mat := ℕ → ℕ → ℝ

/-- A per-source feature covariance matrix. -/
abbrev CovM (D : ℕ) := Matrix (Fin D) (Fin D) ℝ

/-- Squared Mahalanobis distance, written from the spec's words: the
difference vector times the inverse covariance times the transposed
difference vector (`d_M(T_i, T_j)^2`). -/
def mahalanobisSq {D : ℕ} (t s : Vec D) (Sinv : CovM D) : ℝ :=
  Matrix.dotProduct (Matrix.vecMul (t - s) Sinv) (t - s)

/-- The kernel expression of the notebook's fill loop (cell 14):
`nom = (test - train) @ inv_cov @ (test - train).T` followed by
`np.exp(-nom/epsilon)`. -/
def kernelEntry {D : ℕ} (t s : Vec D) (Sinv : CovM D) (eps : ℝ) : ℝ :=
  Real.exp (-(Matrix.dotProduct (Matrix.vecMul (t - s) Sinv) (t - s)) / eps)

/-- The error message numpy's `LinAlgError` carries for an exactly
singular matrix, as propagated unchanged by the fill loop. -/
def singularMsg : String := (r"Singular matrix")

/-- Embedding of `np.linalg.inv`: raises a `LinAlgError` carrying
`singularMsg` on an exactly singular input and silently returns the
inverse otherwise (no conditioning check, no mention of any caller index
in the message). -/
def np_inv {D : ℕ} (S : CovM D) : Except String (CovM D) :=
  if S.det = 0 then Except.error singularMsg else Except.ok S⁻¹

/-- Single assignment `A[p, q] = x` on a notebook-style array. -/
def writeA (A : Mat) (p q : ℕ) (x : ℝ) : Mat :=
  fun a b => if a = p ∧ b = q then x else A a b

/-- The array `A` right after cell 13: a copy of `W` with `M` zero rows
appended, i.e. `A = np.c_[W.T, np.zeros((m, M))].T`. -/
def A0 (W : Mat) (m : ℕ) : Mat :=
  fun a b => if a < m ∧ b < m then W a b else 0

/-- Inner loop of cell 14 with row index `i`, iterating `j` upward through
`range(count)`: computes the feature vectors, inverts covariance `j`
(raising on a singular matrix) and writes the Gaussian kernel value to
`A[i+m, j]`. -/
def fillRow {D : ℕ} (covs : ℕ → CovM D) (testF trainF : ℕ → Vec D)
    (eps : ℝ) (m i : ℕ) : ℕ → Mat → Except String Mat
  | 0, A => Except.ok A
  | j + 1, A => do
      let A' ← fillRow covs testF trainF eps m i j A
      let sinv ← np_inv (covs j)
      Except.ok (writeA A' (i + m) j (kernelEntry (testF i) (trainF j) sinv eps))

/-- Outer loop of cell 14, iterating `i` upward through `range(count)` and
filling row `i + m` over all `j < m`. -/
def fillAll {D : ℕ} (covs : ℕ → CovM D) (testF trainF : ℕ → Vec D)
    (eps : ℝ) (m : ℕ) : ℕ → Mat → Except String Mat
  | 0, A => Except.ok A
  | i + 1, A => fillAll covs testF trainF eps m i A >>=
      fillRow covs testF trainF eps m i m

/-- Cells 13–14 together: start from `W` with `M` zero rows appended and
run the double fill loop. -/
def buildA {D : ℕ} (covs : ℕ → CovM D) (testF trainF : ℕ → Vec D)
    (eps : ℝ) (m M : ℕ) (W : Mat) : Except String Mat :=
  fillAll covs testF trainF eps m M (A0 W m)

/-- The kernel value actually written for test index `i` and training
index `j` when covariance `j` is invertible. -/
def kernelAt {D : ℕ} (covs : ℕ → CovM D) (testF trainF : ℕ → Vec D)
    (eps : ℝ) (i j : ℕ) : ℝ :=
  kernelEntry (testF i) (trainF j) (covs j)⁻¹ eps

/-- The value of `A` after the fill loop terminates successfully. -/
def Afinal {D : ℕ} (covs : ℕ → CovM D) (testF trainF : ℕ → Vec D)
    (eps : ℝ) (m M : ℕ) (W : Mat) : Mat :=
  fun a b =>
    if a < m ∧ b < m then W a b
    else if m ≤ a ∧ a < m + M ∧ b < m then kernelAt covs testF trainF eps (a - m) b
    else 0

/-- Column degree vector `A^T A 1` of cell 17: entry `j` is
`sum_k sum_i A[i,j] * A[i,k]` over the `m` columns and `m+M` rows. -/
def AtA1 (A : Mat) (m M : ℕ) (j : ℕ) : ℝ :=
  ∑ k in Finset.range m, ∑ i in Finset.range (m + M), A i j * A i k

/-- Cell 17's diagonal matrix `S_sqrt = diag(1 / np.sqrt(A.T @ A @ 1))`. -/
def S_sqrt (A : Mat) (m M : ℕ) : Mat :=
  fun a b => if a = b then 1 / Real.sqrt (AtA1 A m M a) else 0

/-- Cell 17's normalized kernel `A_tilde = A @ S_sqrt`. -/
def A_tilde (A : Mat) (m M : ℕ) : Mat :=
  fun i j => ∑ q in Finset.range m, A i q * S_sqrt A m M q j

/-- Modelled from the spec: the Nystrom extension formula
`psi_j = (1 / sqrt(lambda_j)) * (A_tilde @ phi_j)` used by
`compute_d_left_sing_vect`, whose body lives in the absent
`script_rtf.py`.  One coordinate of one extended vector. -/
def nystromCoord (m : ℕ) (At : Mat) (lam : ℝ) (phi : ℕ → ℝ) (i : ℕ) : ℝ :=
  (1 / Real.sqrt lam) * ∑ q in Finset.range m, At i q * phi q

/-- Modelled from the spec: `compute_d_left_sing_vect` (absent from src,
imported from `script_rtf.py`) returns the `d` left-singular vectors
`psi_j = (1 / sqrt(lambda_j)) * A_tilde @ phi_j`, where `eig_vects[:,j]`
is the eigenvector paired with `eig_vals[j]` (cell 10's remark); the
first `d` eigenpairs are used as given.  Entry `(j, i)` is coordinate `i`
of extended vector `j`. -/
def compute_d_left_sing_vect (m M d : ℕ) (eig_vals : ℕ → ℝ)
    (eig_vects : Mat) (At : Mat) : Mat :=
  fun j i =>
    if j < d then nystromCoord m At (eig_vals j) (fun q => eig_vects q j) i
    else 0

/-- The averaged inverse-covariance metric for a training pair.  The spec
leaves the symmetric training metric as "a joint or averaged covariance";
the averaged inverse is used here. -/
def avgInv {D : ℕ} (covs : ℕ → CovM D) (i j : ℕ) : CovM D :=
  ((1 : ℝ) / 2) • ((covs i)⁻¹ + (covs j)⁻¹)

/-- Squared Mahalanobis distance between two training feature vectors
under the averaged metric. -/
def trainDistSq {D : ℕ} (covs : ℕ → CovM D) (trainF : ℕ → Vec D)
    (i j : ℕ) : ℝ :=
  mahalanobisSq (trainF i) (trainF j) (avgInv covs i j)

/-- Modelled from the spec: `compute_affinity_matrix` (absent from src,
imported from `script_rtf.py`) builds the m-by-m training affinity matrix
whose entries are the Mahalanobis-weighted Gaussian kernel
`exp(-d_M(T_i, T_j)^2 / epsilon)` between training feature vectors, with
the symmetrized (averaged) per-pair metric. -/
def compute_affinity_matrix {D : ℕ} (covs : ℕ → CovM D)
    (trainF : ℕ → Vec D) (eps : ℝ) (m : ℕ) : Matrix (Fin m) (Fin m) ℝ :=
  Matrix.of fun i j =>
    kernelEntry (trainF i.val) (trainF j.val) (avgInv covs i.val j.val) eps

/-- Squared distance between test embedding `i` and training embedding
`a` in the d-dimensional embedding space. -/
def embDistSq (d m : ℕ) (sv : Mat) (i a : ℕ) : ℝ :=
  ∑ j in Finset.range d, (sv j (m + i) - sv j a) ^ 2

/-- Distance between test embedding `i` and training embedding `a`. -/
def embDist (d m : ℕ) (sv : Mat) (i a : ℕ) : ℝ :=
  Real.sqrt (embDistSq d m sv i a)

/-- The distance key used to rank training embeddings for test sample
`i`. -/
def embKey (d m : ℕ) (sv : Mat) (i : ℕ) : ℕ → ℝ :=
  fun a => embDist d m sv i a

/-- Insertion into a list sorted by increasing key. -/
def insertSorted (key : ℕ → ℝ) (x : ℕ) : List ℕ → List ℕ
  | [] => [x]
  | y :: ys => if key x ≤ key y then x :: y :: ys else y :: insertSorted key x ys

/-- Insertion sort of a list of indices by increasing key. -/
def sortByKey (key : ℕ → ℝ) (l : List ℕ) : List ℕ :=
  l.foldr (insertSorted key) []

/-- Modelled from the spec: the k nearest training indices by embedding
distance (the spec's "finds the k nearest training embeddings"). -/
def kNearest (key : ℕ → ℝ) (m k : ℕ) : List ℕ :=
  (sortByKey key (List.range m)).take k

/-- Modelled from the spec: normalized inverse-distance interpolation
weight of neighbor `a` among the selected neighbor list `ns` (the spec's
"normalized interpolation weights ... e.g. inverse-distance ... summing
to 1"). -/
def interpWeights (key : ℕ → ℝ) (ns : List ℕ) (a : ℕ) : ℝ :=
  (1 / key a) / (ns.map (fun b => 1 / key b)).sum

/-- Modelled from the spec: `estimate_theta_i` (absent from src, imported
from `script_rtf.py`) predicts the (azimuth, elevation) pair of test
sample `i` as the weighted sum of the training angles of its k nearest
training embeddings; a spherical triple is `(radius, azimuth,
elevation)`, matching the notebook's `training_Set_spherical[j][1]` and
`[2]` accesses. -/
def estimate_theta_i (d m k : ℕ) (sv : Mat)
    (training_spherical : ℕ → ℝ × ℝ × ℝ) (i : ℕ) : ℝ × ℝ :=
  let key := embKey d m sv i
  let ns := kNearest key m k
  ((ns.map (fun a => interpWeights key ns a * (training_spherical a).2.1)).sum,
   (ns.map (fun a => interpWeights key ns a * (training_spherical a).2.2)).sum)

/-- Modelled from the spec: `rmse` (absent from src, imported from
`script_rtf.py`) treats each angle pair as a 2-vector residual and
returns `sqrt(mean(norm(pred - gt)^2))`. -/
def rmse (gt pred : List (ℝ × ℝ)) : ℝ :=
  Real.sqrt
    (((gt.zip pred).map
        (fun p => (p.1.1 - p.2.1) ^ 2 + (p.1.2 - p.2.2) ^ 2)).sum
      / (gt.length : ℝ))

/-- Cells 13–19 composed: build `A`, normalize it, and hand the
pre-computed eigen-pairs of `W` to the Nystrom step. -/
def pipelineSingVects {D : ℕ} (covs : ℕ → CovM D)
    (testF trainF : ℕ → Vec D) (eps : ℝ) (m M d : ℕ)
    (eig_vals : ℕ → ℝ) (eig_vects : Mat) (W : Mat) : Except String Mat :=
  (buildA covs testF trainF eps m M W).map
    (fun A => compute_d_left_sing_vect m M d eig_vals eig_vects (A_tilde A m M))

/-- Cells 13–21 composed: the predicted angle pairs of all `M` test
samples.  The hidden test ground truth is not an input. -/
def thetasPred {D : ℕ} (covs : ℕ → CovM D) (testF trainF : ℕ → Vec D)
    (eps : ℝ) (m M d k : ℕ) (eig_vals : ℕ → ℝ) (eig_vects : Mat)
    (training_spherical : ℕ → ℝ × ℝ × ℝ) (W : Mat) :
    Except String (List (ℝ × ℝ)) :=
  (pipelineSingVects covs testF trainF eps m M d eig_vals eig_vects W).map
    (fun sv => (List.range M).map (estimate_theta_i d m k sv training_spherical))

/-- The whole run of cells 13–23: predictions, then the ground-truth list
from the hidden `test_Set_spherical`, then the reported RMSE.  Returns
the predictions and the RMSE. -/
def runPipeline {D : ℕ} (covs : ℕ → CovM D) (testF trainF : ℕ → Vec D)
    (eps : ℝ) (m M d k : ℕ) (eig_vals : ℕ → ℝ) (eig_vects : Mat)
    (training_spherical : ℕ → ℝ × ℝ × ℝ) (W : Mat)
    (test_spherical : ℕ → ℝ × ℝ × ℝ) :
    Except String (List (ℝ × ℝ)) × Except String ℝ :=
  let pred := thetasPred covs testF trainF eps m M d k eig_vals eig_vects
    training_spherical W
  let gt := (List.range M).map
    (fun i => ((test_spherical i).2.1, (test_spherical i).2.2))
  (pred, pred.map (fun p => rmse gt p))

/-- Binding a successful `Except` computation applies the continuation. -/
theorem ok_bind {α β : Type} (a : α) (f : α → Except String β) :
    (Except.ok a >>= f : Except String β) = f a := rfl

/-- Binding a failed `Except` computation propagates the error. -/
theorem err_bind {α β : Type} (f : α → Except String β) (e : String) :
    ((Except.error e : Except String α) >>= f) = Except.error e := rfl

/-- `np.linalg.inv` on a nonsingular matrix silently returns the inverse. -/
theorem np_inv_ok {D : ℕ} (S : CovM D) (h : S.det ≠ 0) :
    np_inv S = Except.ok S⁻¹ := by
  unfold np_inv
  rw [if_neg h]

/-- `np.linalg.inv` on an exactly singular matrix raises `LinAlgError`. -/
theorem np_inv_err {D : ℕ} (S : CovM D) (h : S.det = 0) :
    np_inv S = Except.error singularMsg := by
  unfold np_inv
  rw [if_pos h]

/-- Running the inner fill loop over `j < n` with invertible covariances
writes exactly the kernel values into row `i + m`, entries `j < n`, and
leaves every other entry of the array unchanged. -/
theorem fillRow_ok {D : ℕ} (covs : ℕ → CovM D) (testF trainF : ℕ → Vec D)
    (eps : ℝ) (m i : ℕ) (n : ℕ) (A : Mat)
    (h : ∀ j, j < n → (covs j).det ≠ 0) :
    fillRow covs testF trainF eps m i n A =
      Except.ok (fun a b =>
        if a = i + m ∧ b < n then kernelAt covs testF trainF eps i b
        else A a b) := by
  induction n with
  | zero =>
      simp only [fillRow]
      congr 1
      funext a b
      simp
  | succ n ih =>
      have hn : ∀ j, j < n → (covs j).det ≠ 0 := fun j hj => h j (Nat.lt_succ_of_lt hj)
      have hdet : (covs n).det ≠ 0 := h n (Nat.lt_succ_self n)
      simp only [fillRow]
      rw [ih hn, ok_bind, np_inv_ok (covs n) hdet, ok_bind]
      congr 1
      funext a b
      by_cases ha : a = i + m
      · by_cases hb : b = n
        · simp [writeA, kernelAt, ha, hb]
        · by_cases hbn : b < n
          · simp [writeA, ha, hb, hbn, Nat.lt_succ_of_lt hbn]
          · have hbn1 : ¬ b < n + 1 := by omega
            simp [writeA, ha, hb, hbn, hbn1]
      · simp [writeA, ha]

/-- If some covariance among the first `n` is exactly singular, the inner
fill loop raises `LinAlgError` with numpy's message. -/
theorem fillRow_err {D : ℕ} (covs : ℕ → CovM D) (testF trainF : ℕ → Vec D)
    (eps : ℝ) (m i : ℕ) (n : ℕ) (A : Mat)
    (h : ∃ j, j < n ∧ (covs j).det = 0) :
    fillRow covs testF trainF eps m i n A = Except.error singularMsg := by
  induction n with
  | zero =>
      obtain ⟨j, hj, _⟩ := h
      exact absurd hj (Nat.not_lt_zero j)
  | succ n ih =>
      by_cases hn : ∃ j, j < n ∧ (covs j).det = 0
      · simp only [fillRow]
        rw [ih hn, err_bind]
      · have hall : ∀ j, j < n → (covs j).det ≠ 0 := by
          intro j hj hd
          exact hn ⟨j, hj, hd⟩
        have hdet : (covs n).det = 0 := by
          obtain ⟨j, hj, hd⟩ := h
          have hjn : j = n := by
            by_contra hne
            exact hn ⟨j, by omega, hd⟩
          exact hjn ▸ hd
        simp only [fillRow]
        rw [fillRow_ok covs testF trainF eps m i n A hall, ok_bind,
          np_inv_err (covs n) hdet, err_bind]

/-- Running the outer fill loop over `i < n` with invertible covariances
fills the block of rows `m ≤ a < m + n`, columns `b < m`, with kernel
values and leaves every other entry unchanged. -/
theorem fillAll_ok {D : ℕ} (covs : ℕ → CovM D) (testF trainF : ℕ → Vec D)
    (eps : ℝ) (m : ℕ) (hcov : ∀ j, j < m → (covs j).det ≠ 0) :
    ∀ (n : ℕ) (A : Mat),
    fillAll covs testF trainF eps m n A =
      Except.ok (fun a b =>
        if m ≤ a ∧ a < m + n ∧ b < m then kernelAt covs testF trainF eps (a - m) b
        else A a b) := by
  intro n
  induction n with
  | zero =>
      intro A
      simp only [fillAll]
      congr 1
      funext a b
      rw [if_neg (by omega : ¬(m ≤ a ∧ a < m + 0 ∧ b < m))]
  | succ n ih =>
      intro A
      simp only [fillAll]
      rw [ih A, ok_bind, fillRow_ok covs testF trainF eps m n m _ hcov]
      congr 1
      funext a b
      by_cases hc2 : m ≤ a ∧ a < m + (n + 1) ∧ b < m
      · by_cases ha : a = n + m
        · have hsub : n + m - m = n := by omega
          have hlt : n + m < m + (n + 1) := by omega
          simp [ha, hc2.2.2, hsub, hlt]
        · have hmid : m ≤ a ∧ a < m + n ∧ b < m := by
            refine ⟨hc2.1, by omega, hc2.2.2⟩
          rw [if_neg (by simp [ha] : ¬(a = n + m ∧ b < m)), if_pos hmid, if_pos hc2]
      · have h1 : ¬(a = n + m ∧ b < m) := by omega
        have h2 : ¬(m ≤ a ∧ a < m + n ∧ b < m) := by omega
        rw [if_neg h1, if_neg h2, if_neg hc2]

/-- If some training covariance is exactly singular and at least one test
row is processed, the whole fill loop raises `LinAlgError` with numpy's
index-free message. -/
theorem fillAll_err {D : ℕ} (covs : ℕ → CovM D) (testF trainF : ℕ → Vec D)
    (eps : ℝ) (m : ℕ) (hsing : ∃ j, j < m ∧ (covs j).det = 0) :
    ∀ n, 0 < n → ∀ A, fillAll covs testF trainF eps m n A = Except.error singularMsg := by
  intro n
  induction n with
  | zero =>
      intro h
      exact absurd h (lt_irrefl 0)
  | succ n ih =>
      intro _ A
      cases Nat.eq_zero_or_pos n with
      | inl h0 =>
          subst h0
          simp only [fillAll, ok_bind]
          exact fillRow_err covs testF trainF eps m 0 m A hsing
      | inr hpos =>
          simp only [fillAll]
          rw [ih hpos A, err_bind]

/-- The kernel expression written out through the spec's Mahalanobis
distance. -/
theorem kernelEntry_eq {D : ℕ} (t s : Vec D) (Sinv : CovM D) (eps : ℝ) :
    kernelEntry t s Sinv eps = Real.exp (-(mahalanobisSq t s Sinv) / eps) := rfl

/-- The squared Mahalanobis distance of a vector to itself is zero. -/
theorem mahalanobisSq_self {D : ℕ} (t : Vec D) (S : CovM D) :
    mahalanobisSq t t S = 0 := by
  unfold mahalanobisSq
  simp

/-- The squared Mahalanobis distance is symmetric in the two feature
vectors (for a fixed metric), since the difference vector only flips
sign. -/
theorem mahalanobisSq_symm {D : ℕ} (t s : Vec D) (S : CovM D) :
    mahalanobisSq s t S = mahalanobisSq t s S := by
  unfold mahalanobisSq
  rw [show s - t = -(t - s) from (neg_sub t s).symm, Matrix.neg_vecMul,
    Matrix.neg_dotProduct, Matrix.dotProduct_neg, neg_neg]

/-- The kernel of two identical feature vectors is exactly 1. -/
theorem kernelEntry_self {D : ℕ} (t : Vec D) (S : CovM D) (eps : ℝ) :
    kernelEntry t t S eps = 1 := by
  rw [kernelEntry_eq, mahalanobisSq_self]
  simp

/-- The averaged inverse-covariance metric is symmetric in the pair. -/
theorem avgInv_comm {D : ℕ} (covs : ℕ → CovM D) (i j : ℕ) :
    avgInv covs i j = avgInv covs j i := by
  unfold avgInv
  rw [add_comm]

/-- One entry of `A_tilde`: the diagonal product collapses to the single
column scaling. -/
theorem atilde_apply (A : Mat) (m M : ℕ) (i j : ℕ) (hj : j < m) :
    A_tilde A m M i j = A i j * (1 / Real.sqrt (AtA1 A m M j)) := by
  unfold A_tilde S_sqrt
  have hcongr : ∀ q ∈ Finset.range m,
      A i q * (if q = j then 1 / Real.sqrt (AtA1 A m M q) else 0)
        = if q = j then A i q * (1 / Real.sqrt (AtA1 A m M q)) else 0 := by
    intro q _
    split <;> ring
  rw [Finset.sum_congr rfl hcongr,
    Finset.sum_ite_eq' (Finset.range m) j
      (fun q => A i q * (1 / Real.sqrt (AtA1 A m M q))),
    if_pos (Finset.mem_range.mpr hj)]

/-- Dividing each mapped summand by a constant divides the list sum. -/
theorem list_sum_map_div (l : List ℕ) (f : ℕ → ℝ) (c : ℝ) :
    (l.map (fun a => f a / c)).sum = (l.map f).sum / c := by
  induction l with
  | nil => simp
  | cons x xs ih => simp [ih, add_div]

/-- The fill loop succeeds on invertible covariances and produces exactly
`Afinal`. -/
theorem buildA_ok {D : ℕ} (covs : ℕ → CovM D) (testF trainF : ℕ → Vec D)
    (eps : ℝ) (m M : ℕ) (W : Mat)
    (hcov : ∀ j, j < m → (covs j).det ≠ 0) :
    buildA covs testF trainF eps m M W
      = Except.ok (Afinal covs testF trainF eps m M W) := by
  unfold buildA
  rw [fillAll_ok covs testF trainF eps m hcov M (A0 W m)]
  congr 1
  funext a b
  unfold Afinal A0
  by_cases h1 : a < m ∧ b < m
  · rw [if_neg (by omega), if_pos h1, if_pos h1]
  · by_cases h2 : m ≤ a ∧ a < m + M ∧ b < m
    · rw [if_pos h2, if_neg h1, if_pos h2]
    · rw [if_neg h2, if_neg h1, if_neg h1, if_neg h2]

/-- C2: for every test/training pair the kernel entry written by the fill
loop equals `exp(-d_M(T_i, T_j)^2 / epsilon)` with `d_M` the Mahalanobis
distance under the supplied inverse covariance, and identical feature
vectors yield the kernel value 1 exactly. -/
theorem kernelEntry_eq_mahalanobis_and_one {D : ℕ} (t s : Vec D)
    (Sinv : CovM D) (eps : ℝ) :
    kernelEntry t s Sinv eps = Real.exp (-(mahalanobisSq t s Sinv) / eps)
      ∧ (t = s → kernelEntry t s Sinv eps = 1) := by
  refine ⟨rfl, fun h => ?_⟩
  subst h
  simp [kernelEntry, Matrix.zero_vecMul, Matrix.zero_dotProduct,
    Real.exp_zero]

/-- Witness for C2: a concrete identical pair gives kernel value 1. -/
theorem kernelEntry_eq_mahalanobis_and_one_witness :
    kernelEntry (fun _ : Fin 1 => (1 : ℝ)) (fun _ => 1) 1 (1e20 : ℝ) = 1 :=
  (kernelEntry_eq_mahalanobis_and_one (fun _ : Fin 1 => (1 : ℝ))
    (fun _ => 1) 1 (1e20 : ℝ)).2 rfl

/-- C1: the test-stage affinity matrix `A` has shape `(m+M) x m` (all
entries outside that block are zero), its top `m x m` block equals `W`
entrywise, and the bottom-block entry `A[m+i, j]` is the Gaussian kernel
of the fill loop applied to test feature vector `i` and training feature
vector `j` under training source `j`'s (inverted) covariance. -/
theorem buildA_entries {D : ℕ} (covs : ℕ → CovM D) (testF trainF : ℕ → Vec D)
    (eps : ℝ) (m M : ℕ) (W : Mat)
    (hcov : ∀ j, j < m → (covs j).det ≠ 0) :
    buildA covs testF trainF eps m M W
        = Except.ok (Afinal covs testF trainF eps m M W)
      ∧ (∀ i j, i < m → j < m →
          Afinal covs testF trainF eps m M W i j = W i j)
      ∧ (∀ i j, i < M → j < m →
          Afinal covs testF trainF eps m M W (m + i) j
            = kernelEntry (testF i) (trainF j) ((covs j)⁻¹) eps)
      ∧ (∀ a b, m + M ≤ a ∨ m ≤ b →
          Afinal covs testF trainF eps m M W a b = 0) := by
  refine ⟨buildA_ok covs testF trainF eps m M W hcov, ?_, ?_, ?_⟩
  · intro i j hi hj
    unfold Afinal
    rw [if_pos ⟨hi, hj⟩]
  · intro i j hi hj
    unfold Afinal
    rw [if_neg (by omega), if_pos (⟨by omega, by omega, hj⟩ :
      m ≤ m + i ∧ m + i < m + M ∧ j < m)]
    unfold kernelAt
    have hsub : m + i - m = i := by omega
    rw [hsub]
  · intro a b hab
    unfold Afinal
    rw [if_neg (by omega), if_neg (by omega)]

/-- Witness for C1 at a concrete instance with one training and one test
source and an identity covariance. -/
theorem buildA_entries_witness :
    buildA (fun _ : ℕ => (1 : CovM 1)) (fun _ _ => 0) (fun _ _ => 0)
        (1e20 : ℝ) 1 1 (fun _ _ => 1)
      = Except.ok (Afinal (fun _ : ℕ => (1 : CovM 1)) (fun _ _ => 0)
          (fun _ _ => 0) (1e20 : ℝ) 1 1 (fun _ _ => 1)) :=
  (buildA_entries (fun _ : ℕ => (1 : CovM 1)) (fun _ _ => 0) (fun _ _ => 0)
    (1e20 : ℝ) 1 1 (fun _ _ => 1)
    (by intro j hj; simp)).1

/-- C10: the fill loop is a frame over `W`: `A` starts as `W` with `M`
zero rows appended, every write lands in rows `m ≤ a < m + M`, so the
final array agrees with the initial `A0` (hence with `W`) on the first
`m` rows, and the singular-vector step of the pipeline consumes exactly
the eigen-data computed from `W` before the test stage. -/
theorem buildA_frame {D : ℕ} (covs : ℕ → CovM D) (testF trainF : ℕ → Vec D)
    (eps : ℝ) (m M d : ℕ) (eig_vals : ℕ → ℝ) (eig_vects : Mat) (W : Mat)
    (hcov : ∀ j, j < m → (covs j).det ≠ 0) :
    buildA covs testF trainF eps m M W
        = Except.ok (Afinal covs testF trainF eps m M W)
      ∧ (∀ a b, a < m →
          Afinal covs testF trainF eps m M W a b = A0 W m a b)
      ∧ (∀ a b, a < m → b < m →
          Afinal covs testF trainF eps m M W a b = W a b)
      ∧ pipelineSingVects covs testF trainF eps m M d eig_vals eig_vects W
          = Except.ok (compute_d_left_sing_vect m M d eig_vals eig_vects
              (A_tilde (Afinal covs testF trainF eps m M W) m M)) := by
  refine ⟨buildA_ok covs testF trainF eps m M W hcov, ?_, ?_, ?_⟩
  · intro a b ha
    unfold Afinal A0
    by_cases hb : b < m
    · rw [if_pos ⟨ha, hb⟩, if_pos ⟨ha, hb⟩]
    · rw [if_neg (by omega), if_neg (by omega), if_neg (by omega)]
  · intro a b ha hb
    unfold Afinal
    rw [if_pos ⟨ha, hb⟩]
  · unfold pipelineSingVects
    rw [buildA_ok covs testF trainF eps m M W hcov]
    rfl

/-- Witness for C10 at a concrete instance: the pipeline's Nystrom step
receives the unchanged pre-test-stage eigen-data. -/
theorem buildA_frame_witness :
    pipelineSingVects (fun _ : ℕ => (1 : CovM 1)) (fun _ _ => 0)
        (fun _ _ => 0) (1e20 : ℝ) 1 1 2 (fun _ => 2) (fun _ _ => 3)
        (fun _ _ => 1)
      = Except.ok (compute_d_left_sing_vect 1 1 2 (fun _ => 2) (fun _ _ => 3)
          (A_tilde (Afinal (fun _ : ℕ => (1 : CovM 1)) (fun _ _ => 0)
            (fun _ _ => 0) (1e20 : ℝ) 1 1 (fun _ _ => 1)) 1 1)) :=
  (buildA_frame (fun _ : ℕ => (1 : CovM 1)) (fun _ _ => 0) (fun _ _ => 0)
    (1e20 : ℝ) 1 1 2 (fun _ => 2) (fun _ _ => 3) (fun _ _ => 1)
    (by intro j hj; simp)).2.2.2

/-- C3: the normalized kernel scales every column `j < m` of `A` by
`1 / sqrt((A^T A 1)_j)`, i.e. `A_tilde = A S^(-1/2)` with
`S = diag(A^T A 1)` acts entrywise as division by the root of the column
degree. -/
theorem A_tilde_column_scaling (A : Mat) (m M : ℕ) (i j : ℕ) (hj : j < m) :
    A_tilde A m M i j = A i j / Real.sqrt (AtA1 A m M j) := by
  rw [atilde_apply A m M i j hj, mul_one_div]

/-- Witness for C3 at a concrete one-column matrix. -/
theorem A_tilde_column_scaling_witness :
    A_tilde (fun _ _ => 1) 1 0 0 0
      = (fun _ _ => (1 : ℝ)) 0 0 / Real.sqrt (AtA1 (fun _ _ => 1) 1 0 0) :=
  A_tilde_column_scaling (fun _ _ => 1) 1 0 0 0 (by norm_num)

/-- Helper for C5: the Nystrom coordinate formula is applied regardless of
the sign of the eigenvalue; in the real-number embedding a non-positive
eigenvalue makes `sqrt(lambda) = 0` and hence `1/sqrt(lambda) = 0`, so
the coordinate silently collapses to `0` (in floating point the same
unguarded division would propagate Inf/NaN). -/
theorem nystromCoord_nonpos_eig (m : ℕ) (At : Mat) (lam : ℝ)
    (phi : ℕ → ℝ) (i : ℕ) (hlam : lam ≤ 0) :
    nystromCoord m At lam phi i = 0 := by
  unfold nystromCoord
  rw [Real.sqrt_eq_zero'.mpr hlam]
  norm_num

/-- C5 counterexample: with eigenvalue `lambda_0 = 0` (non-positive) the
modelled `compute_d_left_sing_vect` still performs the division by
`sqrt(lambda_0)` and produces the numeric coordinate `0` instead of
failing; no condition is ever reported. -/
theorem nystrom_no_guard_counterexample :
    compute_d_left_sing_vect 1 0 1 (fun _ => 0) (fun _ _ => 1)
        (fun _ _ => 1) 0 0 = 0
      ∧ (fun _ : ℕ => (0 : ℝ)) 0 ≤ 0 := by
  constructor
  · unfold compute_d_left_sing_vect
    rw [if_pos (by norm_num : (0 : ℕ) < 1)]
    exact nystromCoord_nonpos_eig 1 (fun _ _ => 1) ((fun _ : ℕ => (0 : ℝ)) 0)
      (fun q => (fun _ _ => (1 : ℝ)) q 0) 0 (le_refl 0)
  · exact le_refl 0

/-- C5 amended: no eigenvalue guard exists; the Nystrom formula is
applied unconditionally to every retained eigenvalue, and a non-positive
eigenvalue silently yields the coordinate `0` in the exact embedding
(Inf/NaN in floating point) rather than a reported failure. -/
theorem sing_vect_nonpos_eig (m M d : ℕ) (eig_vals : ℕ → ℝ)
    (eig_vects : Mat) (At : Mat) (j i : ℕ) (hlam : eig_vals j ≤ 0) :
    compute_d_left_sing_vect m M d eig_vals eig_vects At j i = 0 := by
  unfold compute_d_left_sing_vect
  split
  · exact nystromCoord_nonpos_eig m At (eig_vals j) (fun q => eig_vects q j) i hlam
  · rfl

/-- Witness for the amended C5 at a concrete negative eigenvalue. -/
theorem sing_vect_nonpos_eig_witness :
    compute_d_left_sing_vect 2 1 2 (fun _ => -1) (fun _ _ => 1)
      (fun _ _ => 1) 0 5 = 0 :=
  sing_vect_nonpos_eig 2 1 2 (fun _ => -1) (fun _ _ => 1) (fun _ _ => 1) 0 5
    (by norm_num)

/-- C6 counterexample: with the covariance of source 0 exactly singular,
the fill loop raises numpy's `LinAlgError` whose message `singularMsg`
contains no digit at all, hence identifies no source index. -/
theorem inv_cov_no_index_counterexample :
    buildA (fun _ : ℕ => (0 : CovM 1)) (fun _ _ => 0) (fun _ _ => 0)
        (1e20 : ℝ) 1 1 (fun _ _ => 1)
      = Except.error singularMsg
    ∧ ¬ ∃ c ∈ singularMsg.toList, c.isDigit = true := by
  constructor
  · exact fillAll_err (fun _ : ℕ => (0 : CovM 1)) (fun _ _ => 0)
      (fun _ _ => 0) (1e20 : ℝ) 1
      ⟨0, by norm_num, by simp [Matrix.det_fin_one]⟩ 1 one_pos
      (A0 (fun _ _ => 1) 1)
  · decide

/-- C6 amended: on an exactly singular training covariance (and at least
one processed test row) the fill loop does fail fast, but with numpy's
generic digit-free message, which cannot identify the offending source
index; nonsingular covariances, however ill-conditioned, are inverted
silently (see `buildA_entries`). -/
theorem buildA_singular_raises {D : ℕ} (covs : ℕ → CovM D)
    (testF trainF : ℕ → Vec D) (eps : ℝ) (m M : ℕ) (W : Mat)
    (hM : 0 < M) (hsing : ∃ j, j < m ∧ (covs j).det = 0) :
    buildA covs testF trainF eps m M W = Except.error singularMsg
      ∧ ∀ c ∈ singularMsg.toList, ¬ c.isDigit = true := by
  constructor
  · exact fillAll_err covs testF trainF eps m hsing M hM (A0 W m)
  · decide

/-- Witness for the amended C6 at a concrete singular covariance. -/
theorem buildA_singular_raises_witness :
    buildA (fun _ : ℕ => (0 : CovM 1)) (fun _ _ => 1) (fun _ _ => 1)
        (1 : ℝ) 2 3 (fun _ _ => 5)
      = Except.error singularMsg :=
  (buildA_singular_raises (fun _ : ℕ => (0 : CovM 1)) (fun _ _ => 1)
    (fun _ _ => 1) (1 : ℝ) 2 3 (fun _ _ => 5) (by norm_num)
    ⟨0, by norm_num, by simp [Matrix.det_fin_one]⟩).1

/-- Helper for C7: normalized inverse-distance weights over a nonempty
neighbor list with positive distances are non-negative and sum to 1. -/
theorem interpWeights_nonneg_sum_one (key : ℕ → ℝ) (ns : List ℕ)
    (hne : ns ≠ []) (hpos : ∀ a ∈ ns, 0 < key a) :
    (∀ a ∈ ns, 0 ≤ interpWeights key ns a)
      ∧ (ns.map (interpWeights key ns)).sum = 1 := by
  have hS : 0 < (ns.map (fun b => 1 / key b)).sum := by
    apply List.sum_pos
    · intro x hx
      obtain ⟨b, hb, rfl⟩ := List.mem_map.mp hx
      exact div_pos one_pos (hpos b hb)
    · intro h
      exact hne (List.map_eq_nil_iff.mp h)
  constructor
  · intro a ha
    unfold interpWeights
    exact div_nonneg (one_div_nonneg.mpr (hpos a ha).le) hS.le
  · unfold interpWeights
    rw [list_sum_map_div ns (fun a => 1 / key a)
      ((ns.map (fun b => 1 / key b)).sum)]
    exact div_self (ne_of_gt hS)

/-- C7: over the k nearest training embeddings of a test sample with
positive embedding distances, the interpolation weights are non-negative
and sum to 1, and the predicted (azimuth, elevation) pair equals the
weighted sum of the corresponding training angles with those weights. -/
theorem estimate_theta_weights (d m k : ℕ) (sv : Mat)
    (tr : ℕ → ℝ × ℝ × ℝ) (i : ℕ)
    (hne : kNearest (embKey d m sv i) m k ≠ [])
    (hpos : ∀ a ∈ kNearest (embKey d m sv i) m k, 0 < embKey d m sv i a) :
    (∀ a ∈ kNearest (embKey d m sv i) m k,
        0 ≤ interpWeights (embKey d m sv i) (kNearest (embKey d m sv i) m k) a)
      ∧ ((kNearest (embKey d m sv i) m k).map
          (interpWeights (embKey d m sv i)
            (kNearest (embKey d m sv i) m k))).sum = 1
      ∧ estimate_theta_i d m k sv tr i
          = (((kNearest (embKey d m sv i) m k).map
                (fun a => interpWeights (embKey d m sv i)
                  (kNearest (embKey d m sv i) m k) a * (tr a).2.1)).sum,
             ((kNearest (embKey d m sv i) m k).map
                (fun a => interpWeights (embKey d m sv i)
                  (kNearest (embKey d m sv i) m k) a * (tr a).2.2)).sum) := by
  obtain ⟨h1, h2⟩ := interpWeights_nonneg_sum_one (embKey d m sv i)
    (kNearest (embKey d m sv i) m k) hne hpos
  exact ⟨h1, h2, rfl⟩

/-- Witness for C7 at a concrete instance with one training embedding at
distance 1. -/
theorem estimate_theta_weights_witness :
    ((kNearest (embKey 1 1 (fun _ a => (a : ℝ)) 0) 1 1).map
        (interpWeights (embKey 1 1 (fun _ a => (a : ℝ)) 0)
          (kNearest (embKey 1 1 (fun _ a => (a : ℝ)) 0) 1 1))).sum = 1 :=
  (estimate_theta_weights 1 1 1 (fun _ a => (a : ℝ)) (fun _ => (1, 2, 3)) 0
    (by simp [kNearest, sortByKey, insertSorted, List.range_succ,
      List.range_zero])
    (by
      intro a ha
      simp [kNearest, sortByKey, insertSorted, List.range_succ,
        List.range_zero] at ha
      subst ha
      unfold embKey embDist embDistSq
      rw [Finset.sum_range_one]
      norm_num [Real.sqrt_one])).2.1

/-- C8: the predicted angles are computed only from the embeddings, the
training feature vectors and the training angles — two runs of the
pipeline that differ only in the hidden test-set ground truth
(`test_Set_spherical`) produce identical predictions, the ground truth
flowing only into the reported RMSE. -/
theorem predictions_ignore_ground_truth {D : ℕ} (covs : ℕ → CovM D)
    (testF trainF : ℕ → Vec D) (eps : ℝ) (m M d k : ℕ)
    (eig_vals : ℕ → ℝ) (eig_vects : Mat)
    (training_spherical : ℕ → ℝ × ℝ × ℝ) (W : Mat)
    (gt1 gt2 : ℕ → ℝ × ℝ × ℝ) :
    (runPipeline covs testF trainF eps m M d k eig_vals eig_vects
        training_spherical W gt1).1
      = (runPipeline covs testF trainF eps m M d k eig_vals eig_vects
          training_spherical W gt2).1
    ∧ (runPipeline covs testF trainF eps m M d k eig_vals eig_vects
        training_spherical W gt1).1
      = thetasPred covs testF trainF eps m M d k eig_vals eig_vects
          training_spherical W :=
  ⟨rfl, rfl⟩

/-- C4: round-trip of the Nystrom extension, in exact arithmetic.  If
test row `i` of `A` duplicates training row `p` (a training sample
reinserted as its own test query with identical feature vector and
covariance), the extended coordinate of the test row equals the extended
coordinate of training row `p` exactly and unconditionally; and when the
top block of `A` is `W`, `(lam, phi)` is an eigenpair of `W` with
`lam > 0`, and the column degrees are 1 (the normalization `S^(-1/2)` is
the identity, the regime in which the Nystrom identity is exact rather
than approximate), every training row of the extended vector equals
`phi` scaled by `sqrt(lam)`, so the duplicated test row reproduces
exactly the training eigenvector coordinate `sqrt(lam) * phi p`. -/
theorem nystrom_roundtrip (m M : ℕ) (A W : Mat) (phi : ℕ → ℝ) (lam : ℝ)
    (p i : ℕ) (hp : p < m) (hi : i < M)
    (htop : ∀ a b, a < m → b < m → A a b = W a b)
    (heig : ∀ a, a < m → (∑ b in Finset.range m, W a b * phi b) = lam * phi a)
    (hlam : 0 < lam)
    (hdeg : ∀ j, j < m → AtA1 A m M j = 1)
    (hdup : ∀ q, q < m → A (m + i) q = A p q) :
    nystromCoord m (A_tilde A m M) lam phi (m + i)
        = nystromCoord m (A_tilde A m M) lam phi p
      ∧ (∀ a, a < m →
          nystromCoord m (A_tilde A m M) lam phi a = Real.sqrt lam * phi a)
      ∧ nystromCoord m (A_tilde A m M) lam phi (m + i)
          = Real.sqrt lam * phi p := by
  have hdupt : ∀ q, A_tilde A m M (m + i) q = A_tilde A m M p q := by
    intro q
    unfold A_tilde
    exact Finset.sum_congr rfl
      (fun r hr => by rw [hdup r (Finset.mem_range.mp hr)])
  have hrow : ∀ r, (∑ q in Finset.range m, A_tilde A m M r q * phi q)
      = ∑ q in Finset.range m, A r q * phi q := by
    intro r
    refine Finset.sum_congr rfl ?_
    intro q hq
    rw [atilde_apply A m M r q (Finset.mem_range.mp hq),
      hdeg q (Finset.mem_range.mp hq), Real.sqrt_one]
    ring
  have hfin : ∀ x : ℝ, (1 / Real.sqrt lam) * (lam * x) = Real.sqrt lam * x := by
    intro x
    calc (1 / Real.sqrt lam) * (lam * x) = (lam / Real.sqrt lam) * x := by ring
      _ = Real.sqrt lam * x := by rw [Real.div_sqrt]
  refine ⟨?_, ?_, ?_⟩
  · unfold nystromCoord
    rw [Finset.sum_congr rfl (fun q _ => by rw [hdupt q])]
  · intro a ha
    unfold nystromCoord
    rw [hrow a, Finset.sum_congr rfl
      (fun q hq => by rw [htop a q ha (Finset.mem_range.mp hq)]),
      heig a ha, hfin]
  · unfold nystromCoord
    rw [hrow (m + i), Finset.sum_congr rfl
      (fun q hq => by rw [hdup q (Finset.mem_range.mp hq),
        htop p q hp (Finset.mem_range.mp hq)]),
      heig p hp, hfin]

/-- Witness for C4: one training source with kernel value `sqrt(1/2)`,
duplicated as the single test row; the column degree is
`2 * sqrt(1/2)^2 = 1` and the eigenvalue is `sqrt(1/2) > 0`. -/
theorem nystrom_roundtrip_witness :
    nystromCoord 1 (A_tilde (fun _ _ => Real.sqrt (1 / 2)) 1 1)
        (Real.sqrt (1 / 2)) (fun _ => 1) (1 + 0)
        = nystromCoord 1 (A_tilde (fun _ _ => Real.sqrt (1 / 2)) 1 1)
          (Real.sqrt (1 / 2)) (fun _ => 1) 0
      ∧ (∀ a, a < 1 →
          nystromCoord 1 (A_tilde (fun _ _ => Real.sqrt (1 / 2)) 1 1)
            (Real.sqrt (1 / 2)) (fun _ => 1) a
            = Real.sqrt (Real.sqrt (1 / 2)) * 1)
      ∧ nystromCoord 1 (A_tilde (fun _ _ => Real.sqrt (1 / 2)) 1 1)
          (Real.sqrt (1 / 2)) (fun _ => 1) (1 + 0)
          = Real.sqrt (Real.sqrt (1 / 2)) * 1 :=
  nystrom_roundtrip 1 1 (fun _ _ => Real.sqrt (1 / 2))
    (fun _ _ => Real.sqrt (1 / 2)) (fun _ => 1) (Real.sqrt (1 / 2)) 0 0
    (by norm_num) (by norm_num)
    (fun a b _ _ => rfl)
    (by
      intro a ha
      rw [Finset.sum_range_one])
    (Real.sqrt_pos.mpr (by norm_num))
    (by
      intro j hj
      have hj0 : j = 0 := by omega
      subst hj0
      unfold AtA1
      rw [Finset.sum_range_one, Finset.sum_range_succ, Finset.sum_range_one,
        Real.mul_self_sqrt (by norm_num : (0 : ℝ) ≤ 1 / 2)]
      norm_num)
    (fun q hq => rfl)

/-- One entry of the modelled training affinity matrix, through the
symmetric training distance. -/
theorem compute_affinity_matrix_apply {D : ℕ} (covs : ℕ → CovM D)
    (trainF : ℕ → Vec D) (eps : ℝ) (m : ℕ) (i j : Fin m) :
    compute_affinity_matrix covs trainF eps m i j
      = Real.exp (-(trainDistSq covs trainF i.val j.val) / eps) := rfl

/-- The modelled training affinity matrix is real symmetric (Hermitian
over the reals). -/
theorem compute_affinity_matrix_isHermitian {D : ℕ} (covs : ℕ → CovM D)
    (trainF : ℕ → Vec D) (eps : ℝ) (m : ℕ) :
    (compute_affinity_matrix covs trainF eps m).IsHermitian := by
  apply Matrix.IsHermitian.ext
  intro i j
  rw [star_trivial]
  show kernelEntry (trainF j.val) (trainF i.val) (avgInv covs j.val i.val) eps
    = kernelEntry (trainF i.val) (trainF j.val) (avgInv covs i.val j.val) eps
  rw [kernelEntry_eq, kernelEntry_eq, avgInv_comm, mahalanobisSq_symm]

/-- Every diagonal entry of the modelled training affinity matrix is 1. -/
theorem compute_affinity_matrix_diag {D : ℕ} (covs : ℕ → CovM D)
    (trainF : ℕ → Vec D) (eps : ℝ) (m : ℕ) (i : Fin m) :
    compute_affinity_matrix covs trainF eps m i i = 1 :=
  kernelEntry_self (trainF i.val) (avgInv covs i.val i.val) eps

/-- The trace of the modelled training affinity matrix is `m`. -/
theorem compute_affinity_matrix_trace {D : ℕ} (covs : ℕ → CovM D)
    (trainF : ℕ → Vec D) (eps : ℝ) (m : ℕ) :
    (compute_affinity_matrix covs trainF eps m).trace = (m : ℝ) := by
  have h1 : ∀ i : Fin m, (compute_affinity_matrix covs trainF eps m).diag i = 1 :=
    fun i => compute_affinity_matrix_diag covs trainF eps m i
  unfold Matrix.trace
  rw [Finset.sum_congr rfl (fun i _ => h1 i), Finset.sum_const,
    Finset.card_univ, Fintype.card_fin]
  simp

/-- The sum of the eigenvalues of a real symmetric matrix is its trace
(via the spectral theorem and cyclicity of the trace). -/
theorem trace_eq_sum_eigenvalues {n : ℕ} {A : Matrix (Fin n) (Fin n) ℝ}
    (hA : A.IsHermitian) :
    A.trace = ∑ i, hA.eigenvalues i := by
  have hU : star (hA.eigenvectorUnitary : Matrix (Fin n) (Fin n) ℝ)
      * (hA.eigenvectorUnitary : Matrix (Fin n) (Fin n) ℝ) = 1 :=
    Matrix.mem_unitaryGroup_iff'.mp (hA.eigenvectorUnitary).2
  conv_lhs => rw [hA.spectral_theorem]
  rw [Matrix.trace_mul_cycle, hU, one_mul, Matrix.trace_diagonal]
  simp [Function.comp, RCLike.ofReal_real_eq_id]

/-- C9: the modelled training affinity matrix `W` is symmetric, has
non-negative (indeed positive) entries, its entries decay monotonically
with the squared Mahalanobis distance between the feature vectors, and
its leading (largest) eigenvalue is non-negative. -/
theorem W_train_invariants {D : ℕ} (covs : ℕ → CovM D)
    (trainF : ℕ → Vec D) (eps : ℝ) (m : ℕ) (hm : 0 < m) (heps : 0 < eps) :
    (∀ i j, compute_affinity_matrix covs trainF eps m i j
        = compute_affinity_matrix covs trainF eps m j i)
      ∧ (∀ i j, 0 ≤ compute_affinity_matrix covs trainF eps m i j)
      ∧ (∀ i j a b : Fin m,
          trainDistSq covs trainF i.val j.val
              ≤ trainDistSq covs trainF a.val b.val →
            compute_affinity_matrix covs trainF eps m a b
              ≤ compute_affinity_matrix covs trainF eps m i j)
      ∧ (∃ i0 : Fin m,
          (∀ i1 : Fin m,
            (compute_affinity_matrix_isHermitian covs trainF eps m).eigenvalues i1
              ≤ (compute_affinity_matrix_isHermitian covs trainF eps m).eigenvalues i0)
          ∧ 0 ≤ (compute_affinity_matrix_isHermitian covs trainF eps m).eigenvalues i0) := by
  refine ⟨?_, ?_, ?_, ?_⟩
  · intro i j
    have h := Matrix.IsHermitian.ext_iff.mp
      (compute_affinity_matrix_isHermitian covs trainF eps m) j i
    rw [star_trivial] at h
    exact h
  · intro i j
    rw [compute_affinity_matrix_apply]
    exact (Real.exp_pos _).le
  · intro i j a b hd
    rw [compute_affinity_matrix_apply, compute_affinity_matrix_apply]
    apply Real.exp_le_exp.mpr
    rw [neg_div, neg_div]
    exact neg_le_neg ((div_le_div_iff_of_pos_right heps).mpr hd)
  · haveI : Nonempty (Fin m) := ⟨⟨0, hm⟩⟩
    obtain ⟨i0, _, hmax⟩ := Finset.exists_max_image
      (Finset.univ : Finset (Fin m))
      (compute_affinity_matrix_isHermitian covs trainF eps m).eigenvalues
      Finset.univ_nonempty
    refine ⟨i0, fun i1 => hmax i1 (Finset.mem_univ i1), ?_⟩
    have hsum : (∑ i1, (compute_affinity_matrix_isHermitian covs trainF
        eps m).eigenvalues i1) = (m : ℝ) := by
      rw [← trace_eq_sum_eigenvalues
        (compute_affinity_matrix_isHermitian covs trainF eps m),
        compute_affinity_matrix_trace]
    by_contra hneg
    push_neg at hneg
    have hall : ∀ i1 : Fin m,
        (compute_affinity_matrix_isHermitian covs trainF eps m).eigenvalues i1 < 0 :=
      fun i1 => lt_of_le_of_lt (hmax i1 (Finset.mem_univ i1)) hneg
    have hlt : (∑ i1, (compute_affinity_matrix_isHermitian covs trainF
        eps m).eigenvalues i1) < 0 :=
      Finset.sum_neg (fun i1 _ => hall i1) Finset.univ_nonempty
    rw [hsum] at hlt
    have hm' : (0 : ℝ) < m := by exact_mod_cast hm
    linarith

/-- Witness for C9: positivity of the entries at a concrete instance. -/
theorem W_train_invariants_witness :
    0 ≤ compute_affinity_matrix (fun _ : ℕ => (1 : CovM 1))
      (fun _ _ => 0) 1 1 0 0 :=
  (W_train_invariants (fun _ : ℕ => (1 : CovM 1)) (fun _ _ => 0) 1 1
    one_pos one_pos).2.1 0 0
